import Mathlib

/-!
Shallow embedding of the feedforward neural-network layer module
(`supervised_learning/low_level_implementations/feedforward_nn/layers.py`).

Arrays follow the repository's `[feature_dimension, batch_dimension]`
convention and are modelled as Mathlib matrices: exact rationals for the
purely arithmetical Dense and Relu layers, reals for Softmax (which uses
the exponential function).  Mutable numpy arrays are modelled by explicit
state passing: every `forward_pass` returns, besides the layer output and
the updated layer state, the value held by the caller's input array after
the call (numpy's in-place operations can mutate it).  Fallible calls
return `Except LayerError`.
-/

open Matrix

namespace Layers

/-- Error taxonomy of the layer module: an unsupported mode in the dual
purpose call entry point, use of a cache or parameters that are still in
their initial `None` state, and division by a zero sample count. -/
inductive LayerError where
  | invalidMode : LayerError
  | uninitializedState : LayerError
  | divisionByZero : LayerError
deriving DecidableEq

/-- Dispatch of `Layer.__call__`: the string `"forward"` selects the
forward pass, `"backward"` the backward pass, anything else is rejected. -/
def Layer.call {α β : Type} (fwd bwd : α → β) (input : α) (method : String) :
    Except LayerError β :=
  if method = "forward" then .ok (fwd input)
  else if method = "backward" then .ok (bwd input)
  else .error .invalidMode

/-- Mutable state of a `Dense` layer with `k` neurons, `n` input features
and (most recent) batch size `m`.  Every field starts out as `None` in
`Dense.__init__`; `weights`/`bias` are filled by the initialisation steps,
`layer_input`/`m_samples` by `forward_pass`, the gradients by
`backward_pass`. -/
structure Dense (k n m : ℕ) where
  weights : Option (Matrix (Fin k) (Fin n) ℚ)
  bias : Option (Matrix (Fin k) (Fin 1) ℚ)
  layer_input : Option (Matrix (Fin n) (Fin m) ℚ)
  m_samples : Option ℕ
  grad_weights : Option (Matrix (Fin k) (Fin n) ℚ)
  grad_bias : Option (Matrix (Fin k) (Fin 1) ℚ)

/-- State of a freshly constructed `Dense` layer (`Dense.__init__`). -/
def Dense.init (k n m : ℕ) : Dense k n m :=
  ⟨none, none, none, none, none, none⟩

/-- The affine map of the Dense forward pass,
`Z = W · A + b` with the bias column broadcast across the batch. -/
def densePreactivation {k n m : ℕ} (W : Matrix (Fin k) (Fin n) ℚ)
    (b : Matrix (Fin k) (Fin 1) ℚ) (x : Matrix (Fin n) (Fin m) ℚ) :
    Matrix (Fin k) (Fin m) ℚ :=
  Matrix.of fun i j => (W * x) i j + b i 0

/-- `Dense.forward_pass`: requires initialised parameters (numpy raises on
arithmetic with `None` otherwise), returns the preactivation, the caller's
input array unchanged, and the state with `layer_input` and `m_samples`
overwritten. -/
def Dense.forward_pass {k n m : ℕ} (s : Dense k n m)
    (x : Matrix (Fin n) (Fin m) ℚ) :
    Except LayerError
      (Matrix (Fin k) (Fin m) ℚ × Matrix (Fin n) (Fin m) ℚ × Dense k n m) :=
  match s.weights, s.bias with
  | some W, some b =>
      .ok (densePreactivation W b x, x,
        { s with layer_input := some x, m_samples := some m })
  | _, _ => .error .uninitializedState

/-- `Dense.backward_pass`: requires parameters and a cached forward call
(numpy raises on `None` otherwise; an integer division `1 / 0` raises when
the cached batch was empty).  Writes `grad_weights = (1/m) · dy · xᵀ` and
`grad_bias = (1/m) · rowwise_sum(dy)` and returns `dx = Wᵀ · dy`. -/
def Dense.backward_pass {k n m : ℕ} (s : Dense k n m)
    (dy : Matrix (Fin k) (Fin m) ℚ) :
    Except LayerError (Matrix (Fin n) (Fin m) ℚ × Dense k n m) :=
  match s.weights, s.bias, s.layer_input, s.m_samples with
  | some W, some _b, some x, some ms =>
      if ms = 0 then .error .divisionByZero
      else
        .ok (Wᵀ * dy,
          { s with
              grad_weights := some ((1 / (ms : ℚ)) • (dy * xᵀ)),
              grad_bias :=
                some ((1 / (ms : ℚ)) •
                  Matrix.of fun i (_ : Fin 1) => ∑ j, dy i j) })
  | _, _, _, _ => .error .uninitializedState

/-- State of a `Relu` layer: `layer_input` caches the *output* of the most
recent forward call (`None` after `Relu.__init__`). -/
structure Relu (n m : ℕ) where
  layer_input : Option (Matrix (Fin n) (Fin m) ℚ)

/-- State of a freshly constructed `Relu` layer. -/
def Relu.init (n m : ℕ) : Relu n m := ⟨none⟩

/-- Elementwise rectifier `A = np.maximum(0, Z)`. -/
def reluActivation {n m : ℕ} (z : Matrix (Fin n) (Fin m) ℚ) :
    Matrix (Fin n) (Fin m) ℚ :=
  Matrix.of fun i j => max 0 (z i j)

/-- `Relu.forward_pass`: returns the activation, the caller's input array
unchanged (`np.maximum` allocates a new array), and the state with the
activation cached as `layer_input`. -/
def Relu.forward_pass {n m : ℕ} (_s : Relu n m)
    (z : Matrix (Fin n) (Fin m) ℚ) :
    Matrix (Fin n) (Fin m) ℚ × Matrix (Fin n) (Fin m) ℚ × Relu n m :=
  (reluActivation z, z, ⟨some (reluActivation z)⟩)

/-- `Relu.backward_pass`: `dZ = dA * (cached > 0)`, the boolean mask acting
as a 0/1 factor; requires a cached forward call (numpy raises on
`None > 0`). -/
def Relu.backward_pass {n m : ℕ} (s : Relu n m)
    (dy : Matrix (Fin n) (Fin m) ℚ) :
    Except LayerError (Matrix (Fin n) (Fin m) ℚ) :=
  match s.layer_input with
  | some y => .ok (Matrix.of fun i j => dy i j * (if 0 < y i j then 1 else 0))
  | none => .error .uninitializedState

/-- State of a `Softmax` layer: `layer_output` caches the most recent
forward output (`None` after `Softmax.__init__`).  The feature dimension is
`n + 1` because `np.max` over an empty axis is an error the module never
has to survive. -/
structure Softmax (n m : ℕ) where
  layer_output : Option (Matrix (Fin (n + 1)) (Fin m) ℝ)

/-- State of a freshly constructed `Softmax` layer. -/
def Softmax.init (n m : ℕ) : Softmax n m := ⟨none⟩

/-- Column-wise maximum `np.max(z, axis=0)`. -/
noncomputable def colMax {n m : ℕ} (z : Matrix (Fin (n + 1)) (Fin m) ℝ)
    (j : Fin m) : ℝ :=
  Finset.univ.sup' Finset.univ_nonempty fun i => z i j

/-- The value held by the input array after the in-place stabilising shift
`preactivation -= np.max(preactivation, axis=0, keepdims=True)`. -/
noncomputable def softmaxShifted {n m : ℕ}
    (z : Matrix (Fin (n + 1)) (Fin m) ℝ) : Matrix (Fin (n + 1)) (Fin m) ℝ :=
  Matrix.of fun i j => z i j - colMax z j

/-- The softmax probabilities
`exp(z') / np.sum(exp(z'), axis=0)` computed from the shifted input. -/
noncomputable def softmaxActivation {n m : ℕ}
    (z : Matrix (Fin (n + 1)) (Fin m) ℝ) : Matrix (Fin (n + 1)) (Fin m) ℝ :=
  Matrix.of fun i j =>
    Real.exp (softmaxShifted z i j) / ∑ i2, Real.exp (softmaxShifted z i2 j)

/-- `Softmax.forward_pass`: returns the activation, the value the caller's
input array holds after the call (the in-place `-=` leaves it shifted), and
the state with the activation cached as `layer_output`. -/
noncomputable def Softmax.forward_pass {n m : ℕ} (_s : Softmax n m)
    (z : Matrix (Fin (n + 1)) (Fin m) ℝ) :
    Matrix (Fin (n + 1)) (Fin m) ℝ × Matrix (Fin (n + 1)) (Fin m) ℝ ×
      Softmax n m :=
  (softmaxActivation z, softmaxShifted z, ⟨some (softmaxActivation z)⟩)

/-- The batch-shared Jacobian of `Softmax.backward_pass`: the diagonal
holds `np.mean(y * (1 - y), axis=1)` turned into a diagonal matrix via
`np.diag`, the off-diagonal part is `-np.matmul(y, y.T)` with its diagonal
zeroed by `np.fill_diagonal`. -/
noncomputable def softmaxJacobian {n m : ℕ}
    (y : Matrix (Fin (n + 1)) (Fin m) ℝ) :
    Matrix (Fin (n + 1)) (Fin (n + 1)) ℝ :=
  Matrix.diagonal (fun i => (∑ j, y i j * (1 - y i j)) / (m : ℝ)) +
    Matrix.of fun i i2 => if i = i2 then 0 else (-(y * yᵀ)) i i2

/-- `Softmax.backward_pass`: requires a cached forward call (numpy raises
on `None` arithmetic) and returns `dZ = jacobian · dA`. -/
noncomputable def Softmax.backward_pass {n m : ℕ} (s : Softmax n m)
    (dy : Matrix (Fin (n + 1)) (Fin m) ℝ) :
    Except LayerError (Matrix (Fin (n + 1)) (Fin m) ℝ) :=
  match s.layer_output with
  | some y => .ok (softmaxJacobian y * dy)
  | none => .error .uninitializedState

/-- The standard per-sample softmax Jacobian, written from the spec's
description of the true derivative: `J[i,i] = y_i (1 - y_i)` and
`J[i,j] = -y_i y_j` for `i ≠ j`.  Used only to compare the code's
batch-shared Jacobian against the textbook one. -/
noncomputable def softmaxJacobianPerSample {k : ℕ} (y : Fin k → ℝ) :
    Matrix (Fin k) (Fin k) ℝ :=
  Matrix.of fun i j => if i = j then y i * (1 - y i) else -(y i * y j)

/-- Adding a per-column constant shifts each column-wise maximum by that
constant. -/
lemma colMax_addCol {n m : ℕ} (z : Matrix (Fin (n + 1)) (Fin m) ℝ)
    (c : Fin m → ℝ) (j : Fin m) :
    colMax (Matrix.of fun i j2 => z i j2 + c j2) j = colMax z j + c j := by
  unfold colMax
  apply le_antisymm
  · refine Finset.sup'_le _ _ fun i _ => ?_
    have h1 : z i j ≤ Finset.univ.sup' Finset.univ_nonempty fun i2 => z i2 j :=
      Finset.le_sup' (fun i2 => z i2 j) (Finset.mem_univ i)
    simpa [Matrix.of_apply] using add_le_add_right h1 (c j)
  · obtain ⟨i0, _, h0⟩ :=
      Finset.exists_mem_eq_sup' (Finset.univ_nonempty) (fun i2 => z i2 j)
    rw [h0]
    have h2 := Finset.le_sup'
      (fun i2 => (Matrix.of fun i j2 => z i j2 + c j2) i2 j) (Finset.mem_univ i0)
    simpa [Matrix.of_apply] using h2

/-- The stabilising shift is unchanged by adding a per-column constant to
the input. -/
lemma softmaxShifted_addCol {n m : ℕ} (z : Matrix (Fin (n + 1)) (Fin m) ℝ)
    (c : Fin m → ℝ) :
    softmaxShifted (Matrix.of fun i j2 => z i j2 + c j2) = softmaxShifted z := by
  funext i j
  show (Matrix.of fun i j2 => z i j2 + c j2) i j -
      colMax (Matrix.of fun i j2 => z i j2 + c j2) j = z i j - colMax z j
  rw [colMax_addCol, Matrix.of_apply]
  ring

/-- Softmax probabilities are invariant under adding a per-column constant
to the input. -/
lemma softmaxActivation_addCol {n m : ℕ} (z : Matrix (Fin (n + 1)) (Fin m) ℝ)
    (c : Fin m → ℝ) :
    softmaxActivation (Matrix.of fun i j2 => z i j2 + c j2) =
      softmaxActivation z := by
  unfold softmaxActivation
  rw [softmaxShifted_addCol]

/-- The shifted input, written as the original input plus per-column
constants. -/
lemma softmaxShifted_eq_addCol {n m : ℕ} (z : Matrix (Fin (n + 1)) (Fin m) ℝ) :
    softmaxShifted z =
      Matrix.of fun i j2 => z i j2 + (fun j3 => -colMax z j3) j2 := by
  funext i j
  show z i j - colMax z j = z i j + -colMax z j
  ring

/-- Every column maximum of a shifted input is zero. -/
lemma colMax_softmaxShifted {n m : ℕ} (z : Matrix (Fin (n + 1)) (Fin m) ℝ)
    (j : Fin m) : colMax (softmaxShifted z) j = 0 := by
  rw [softmaxShifted_eq_addCol, colMax_addCol]
  ring

/-- Shifting an already shifted input changes nothing. -/
lemma softmaxShifted_idem {n m : ℕ} (z : Matrix (Fin (n + 1)) (Fin m) ℝ) :
    softmaxShifted (softmaxShifted z) = softmaxShifted z := by
  funext i j
  show softmaxShifted z i j - colMax (softmaxShifted z) j = softmaxShifted z i j
  rw [colMax_softmaxShifted, sub_zero]

/-- Softmax probabilities of a shifted input equal those of the original
input. -/
lemma softmaxActivation_softmaxShifted {n m : ℕ}
    (z : Matrix (Fin (n + 1)) (Fin m) ℝ) :
    softmaxActivation (softmaxShifted z) = softmaxActivation z := by
  rw [softmaxShifted_eq_addCol z]
  exact softmaxActivation_addCol z fun j3 => -colMax z j3

/-- C1: with cached output `y` of shape `[n_neurons, m_samples]`,
`Softmax.backward_pass dy` computes one batch-shared Jacobian whose
diagonal entries are the per-entry mean over samples of `y * (1 - y)` and
whose off-diagonal entries are those of `-y·yᵀ` (accumulated over the
batch by the matrix product, diagonal zeroed), and returns `J · dy`. -/
theorem softmax_backward_batch_jacobian {n m : ℕ}
    (y dy : Matrix (Fin (n + 1)) (Fin m) ℝ) :
    Softmax.backward_pass ⟨some y⟩ dy =
      .ok ((Matrix.of fun i i2 =>
        if i = i2 then (∑ j, y i j * (1 - y i j)) / (m : ℝ)
        else -(∑ j, y i j * y i2 j)) * dy) := by
  have hJ : softmaxJacobian y = Matrix.of fun i i2 =>
      if i = i2 then (∑ j, y i j * (1 - y i j)) / (m : ℝ)
      else -(∑ j, y i j * y i2 j) := by
    funext i i2
    by_cases h : i = i2
    · subst h
      simp [softmaxJacobian]
    · simp [softmaxJacobian, Matrix.diagonal_apply_ne _ h, h, Matrix.mul_apply]
  show Except.ok (softmaxJacobian y * dy) = _
  rw [hJ]

/-- C10: for batch size 1, `Softmax.backward_pass` coincides with the
application of the true per-sample softmax Jacobian
(`J[i,i] = y_i (1 - y_i)`, `J[i,j] = -y_i y_j` for `i ≠ j`). -/
theorem softmax_backward_single_sample_true_jacobian {n : ℕ}
    (y dy : Matrix (Fin (n + 1)) (Fin 1) ℝ) :
    Softmax.backward_pass ⟨some y⟩ dy =
      .ok (softmaxJacobianPerSample (fun i => y i 0) * dy) := by
  have hJ : softmaxJacobian y = softmaxJacobianPerSample fun i => y i 0 := by
    funext i i2
    by_cases h : i = i2
    · subst h
      simp [softmaxJacobian, softmaxJacobianPerSample, Fin.sum_univ_one]
    · simp [softmaxJacobian, softmaxJacobianPerSample,
        Matrix.diagonal_apply_ne _ h, h, Matrix.mul_apply, Fin.sum_univ_one]
  show Except.ok (softmaxJacobian y * dy) = _
  rw [hJ]

/-- C3: every column of the Softmax forward output sums to exactly 1 over
exact arithmetic, each entry being `exp(z_i') / ∑ exp(z_j')` computed per
column after the stabilising shift. -/
theorem softmax_forward_columns_sum_to_one {n m : ℕ} (s : Softmax n m)
    (z : Matrix (Fin (n + 1)) (Fin m) ℝ) (j : Fin m) :
    ∑ i, (Softmax.forward_pass s z).1 i j = 1 := by
  have hS : 0 < ∑ i2, Real.exp (softmaxShifted z i2 j) :=
    Finset.sum_pos (fun i2 _ => Real.exp_pos _) Finset.univ_nonempty
  show ∑ i,
      Real.exp (softmaxShifted z i j) / ∑ i2, Real.exp (softmaxShifted z i2 j) = 1
  rw [← Finset.sum_div]
  exact div_self (ne_of_gt hS)

/-- C6: adding a per-column constant to the input leaves the Softmax
forward output unchanged (shift invariance per column, guaranteed by
subtracting each column's maximum before exponentiating). -/
theorem softmax_forward_shift_invariance {n m : ℕ} (s : Softmax n m)
    (z : Matrix (Fin (n + 1)) (Fin m) ℝ) (c : Fin m → ℝ) :
    (Softmax.forward_pass s (Matrix.of fun i j2 => z i j2 + c j2)).1 =
      (Softmax.forward_pass s z).1 := by
  show softmaxActivation (Matrix.of fun i j2 => z i j2 + c j2) =
    softmaxActivation z
  exact softmaxActivation_addCol z c

/-- C2: for an initialised Dense layer, a forward pass on `x` caches `x`
and the batch size, and a subsequent `backward_pass dy` sets
`grad_weights = (1/m) · dy · xᵀ` (the shape of `weights`), sets
`grad_bias = (1/m) · rowwise_sum(dy)` keeping the column dimension (the
shape of `bias`), and returns `dx = weightsᵀ · dy` (the shape of the
cached `x`). -/
theorem dense_backward_gradients {k n m : ℕ} (hm : 0 < m)
    (W : Matrix (Fin k) (Fin n) ℚ) (b : Matrix (Fin k) (Fin 1) ℚ)
    (li : Option (Matrix (Fin n) (Fin m) ℚ)) (ms : Option ℕ)
    (gw : Option (Matrix (Fin k) (Fin n) ℚ))
    (gb : Option (Matrix (Fin k) (Fin 1) ℚ))
    (x : Matrix (Fin n) (Fin m) ℚ) (dy : Matrix (Fin k) (Fin m) ℚ) :
    Dense.forward_pass (⟨some W, some b, li, ms, gw, gb⟩ : Dense k n m) x =
      .ok (densePreactivation W b x, x,
        ⟨some W, some b, some x, some m, gw, gb⟩) ∧
    Dense.backward_pass
        (⟨some W, some b, some x, some m, gw, gb⟩ : Dense k n m) dy =
      .ok (Wᵀ * dy,
        ⟨some W, some b, some x, some m,
          some ((1 / (m : ℚ)) • (dy * xᵀ)),
          some ((1 / (m : ℚ)) • Matrix.of fun i (_ : Fin 1) => ∑ j, dy i j)⟩) := by
  refine ⟨rfl, ?_⟩
  have hne : m ≠ 0 := Nat.pos_iff_ne_zero.mp hm
  show (if m = 0 then Except.error LayerError.divisionByZero else
      Except.ok (Wᵀ * dy,
        (⟨some W, some b, some x, some m,
          some ((1 / (m : ℚ)) • (dy * xᵀ)),
          some ((1 / (m : ℚ)) •
            Matrix.of fun i (_ : Fin 1) => ∑ j, dy i j)⟩ : Dense k n m))) = _
  rw [if_neg hne]

/-- Concrete weight matrix used by the witness of
`dense_backward_gradients`. -/
def wMat1 : Matrix (Fin 1) (Fin 1) ℚ := Matrix.of ![![2]]

/-- Concrete bias used by the witness of `dense_backward_gradients`. -/
def bMat1 : Matrix (Fin 1) (Fin 1) ℚ := Matrix.of ![![3]]

/-- Concrete input used by the witness of `dense_backward_gradients`. -/
def xMat1 : Matrix (Fin 1) (Fin 1) ℚ := Matrix.of ![![5]]

/-- Concrete output gradient used by the witness of
`dense_backward_gradients`. -/
def dyMat1 : Matrix (Fin 1) (Fin 1) ℚ := Matrix.of ![![7]]

/-- Witness for `dense_backward_gradients` at a concrete one-by-one
layer with batch size 1. -/
theorem dense_backward_gradients_witness :
    0 < 1 ∧
    (Dense.forward_pass
        (⟨some wMat1, some bMat1, none, none, none, none⟩ : Dense 1 1 1) xMat1 =
      .ok (densePreactivation wMat1 bMat1 xMat1,
        xMat1, ⟨some wMat1, some bMat1, some xMat1, some 1, none, none⟩) ∧
    Dense.backward_pass
        (⟨some wMat1, some bMat1, some xMat1, some 1, none, none⟩ : Dense 1 1 1)
        dyMat1 =
      .ok (wMat1ᵀ * dyMat1,
        ⟨some wMat1, some bMat1, some xMat1, some 1,
          some ((1 / ((1 : ℕ) : ℚ)) • (dyMat1 * xMat1ᵀ)),
          some ((1 / ((1 : ℕ) : ℚ)) •
            Matrix.of fun i (_ : Fin 1) => ∑ j, dyMat1 i j)⟩)) :=
  ⟨by decide,
    dense_backward_gradients (by decide) wMat1 bMat1 none none none none
      xMat1 dyMat1⟩

/-- C5: the Relu forward output is 0 wherever the input is at most 0 and
equals the input wherever it is positive; a subsequent backward pass
returns a gradient that is 0 wherever the cached output is 0 (ties at
exactly zero included) and copies the incoming gradient elsewhere. -/
theorem relu_forward_backward_masks {n m : ℕ}
    (z dy : Matrix (Fin n) (Fin m) ℚ) :
    (∀ i j, z i j ≤ 0 → (Relu.forward_pass (Relu.init n m) z).1 i j = 0) ∧
    (∀ i j, 0 < z i j → (Relu.forward_pass (Relu.init n m) z).1 i j = z i j) ∧
    ∃ dz,
      Relu.backward_pass (Relu.forward_pass (Relu.init n m) z).2.2 dy =
          .ok dz ∧
        ∀ i j,
          ((Relu.forward_pass (Relu.init n m) z).1 i j = 0 → dz i j = 0) ∧
          ((Relu.forward_pass (Relu.init n m) z).1 i j ≠ 0 →
            dz i j = dy i j) := by
  refine ⟨fun i j h => max_eq_left h, fun i j h => max_eq_right h.le, ?_⟩
  refine ⟨Matrix.of fun i j =>
    dy i j * (if 0 < reluActivation z i j then 1 else 0), rfl,
    fun i j => ⟨?_, ?_⟩⟩
  · intro h
    have h0 : reluActivation z i j = 0 := h
    show dy i j * (if 0 < reluActivation z i j then 1 else 0) = 0
    rw [h0]
    norm_num
  · intro h
    have h0 : reluActivation z i j ≠ 0 := h
    have hpos : 0 < reluActivation z i j :=
      lt_of_le_of_ne (le_max_left 0 (z i j)) (Ne.symm h0)
    show dy i j * (if 0 < reluActivation z i j then 1 else 0) = dy i j
    rw [if_pos hpos, mul_one]

/-- Witness for `relu_forward_backward_masks` at a concrete one-by-two
input with one nonpositive and one positive entry. -/
theorem relu_forward_backward_masks_witness :
    ((Relu.forward_pass (Relu.init 1 2) (Matrix.of ![![(-2 : ℚ), 3]])).1 0 0
        = 0) ∧
    ((Relu.forward_pass (Relu.init 1 2) (Matrix.of ![![(-2 : ℚ), 3]])).1 0 1
        = 3) ∧
    ∃ dz,
      Relu.backward_pass
          (Relu.forward_pass (Relu.init 1 2)
            (Matrix.of ![![(-2 : ℚ), 3]])).2.2
          (Matrix.of ![![(5 : ℚ), 7]]) = .ok dz ∧
        dz 0 0 = 0 ∧ dz 0 1 = 7 := by
  have h := relu_forward_backward_masks (Matrix.of ![![(-2 : ℚ), 3]])
    (Matrix.of ![![(5 : ℚ), 7]])
  refine ⟨h.1 0 0 (by norm_num), h.2.1 0 1 (by norm_num), ?_⟩
  obtain ⟨dz, hdz, hmask⟩ := h.2.2
  refine ⟨dz, hdz, (hmask 0 0).1 ?_, ?_⟩
  · show max 0 (-2 : ℚ) = 0
    norm_num
  · refine (hmask 0 1).2 ?_
    show max 0 (3 : ℚ) ≠ 0
    norm_num

/-- C7: a backward pass before any forward pass (cache still in its
initial `None` state), and a Dense forward or backward pass before
parameter initialisation, fail with the uninitialised-state error rather
than returning a value. -/
theorem uninitialized_state_errors {k n m : ℕ}
    (x : Matrix (Fin n) (Fin m) ℚ) (dy : Matrix (Fin k) (Fin m) ℚ)
    (dyr : Matrix (Fin n) (Fin m) ℚ)
    (dys : Matrix (Fin (n + 1)) (Fin m) ℝ)
    (W : Matrix (Fin k) (Fin n) ℚ) (b : Matrix (Fin k) (Fin 1) ℚ)
    (gw : Option (Matrix (Fin k) (Fin n) ℚ))
    (gb : Option (Matrix (Fin k) (Fin 1) ℚ)) :
    Dense.forward_pass (Dense.init k n m) x = .error .uninitializedState ∧
    Dense.backward_pass (Dense.init k n m) dy = .error .uninitializedState ∧
    Dense.backward_pass (⟨some W, some b, none, none, gw, gb⟩ : Dense k n m)
        dy = .error .uninitializedState ∧
    Relu.backward_pass (Relu.init n m) dyr = .error .uninitializedState ∧
    Softmax.backward_pass (Softmax.init n m) dys =
      .error .uninitializedState :=
  ⟨rfl, rfl, rfl, rfl, rfl⟩

/-- C8: the dual-purpose call entry point rejects any mode other than
`"forward"` and `"backward"` with the invalid-mode error, dispatches
`"forward"` to the forward pass and `"backward"` to the backward pass. -/
theorem layer_call_dispatch {α β : Type} (fwd bwd : α → β) (input : α)
    (method : String) :
    (method ≠ "forward" → method ≠ "backward" →
      Layer.call fwd bwd input method = .error .invalidMode) ∧
    Layer.call fwd bwd input "forward" = .ok (fwd input) ∧
    Layer.call fwd bwd input "backward" = .ok (bwd input) := by
  refine ⟨fun h1 h2 => ?_, rfl, ?_⟩
  · unfold Layer.call
    rw [if_neg h1, if_neg h2]
  · unfold Layer.call
    rw [if_neg (by decide : ¬("backward" = "forward")), if_pos rfl]

/-- Witness for `layer_call_dispatch` at a concrete unsupported mode
string. -/
theorem layer_call_dispatch_witness :
    "update" ≠ "forward" ∧ "update" ≠ "backward" ∧
    Layer.call (fun q : ℚ => q) (fun q : ℚ => q) 0 "update" =
      .error .invalidMode :=
  ⟨by decide, by decide,
    (layer_call_dispatch (fun q : ℚ => q) (fun q : ℚ => q) 0 "update").1
      (by decide) (by decide)⟩

/-- C9: calling `forward_pass` twice in a row with the same input (for
Softmax, the same mutable array, which the first call leaves holding the
shifted values) and no intervening `backward_pass` produces identical
outputs and identical post-call states — the cache is simply overwritten
with no error — so a subsequent `backward_pass` behaves exactly as it
would after a single forward pass. -/
theorem forward_pass_idempotent_cache_overwrite {k n m p q r t : ℕ}
    (W : Matrix (Fin k) (Fin n) ℚ) (b : Matrix (Fin k) (Fin 1) ℚ)
    (li : Option (Matrix (Fin n) (Fin m) ℚ)) (ms : Option ℕ)
    (gw : Option (Matrix (Fin k) (Fin n) ℚ))
    (gb : Option (Matrix (Fin k) (Fin 1) ℚ))
    (x : Matrix (Fin n) (Fin m) ℚ)
    (sr : Relu p q) (zr dyr : Matrix (Fin p) (Fin q) ℚ)
    (ss : Softmax r t) (zs dys : Matrix (Fin (r + 1)) (Fin t) ℝ) :
    Dense.forward_pass (⟨some W, some b, li, ms, gw, gb⟩ : Dense k n m) x =
      .ok (densePreactivation W b x, x,
        ⟨some W, some b, some x, some m, gw, gb⟩) ∧
    Dense.forward_pass
        (⟨some W, some b, some x, some m, gw, gb⟩ : Dense k n m) x =
      .ok (densePreactivation W b x, x,
        ⟨some W, some b, some x, some m, gw, gb⟩) ∧
    Relu.forward_pass (Relu.forward_pass sr zr).2.2 zr =
      Relu.forward_pass sr zr ∧
    Relu.backward_pass
        (Relu.forward_pass (Relu.forward_pass sr zr).2.2 zr).2.2 dyr =
      Relu.backward_pass (Relu.forward_pass sr zr).2.2 dyr ∧
    Softmax.forward_pass (Softmax.forward_pass ss zs).2.2
        ((Softmax.forward_pass ss zs).2.1) =
      Softmax.forward_pass ss zs ∧
    Softmax.backward_pass
        (Softmax.forward_pass (Softmax.forward_pass ss zs).2.2
          ((Softmax.forward_pass ss zs).2.1)).2.2 dys =
      Softmax.backward_pass (Softmax.forward_pass ss zs).2.2 dys := by
  have h5 : Softmax.forward_pass (Softmax.forward_pass ss zs).2.2
      ((Softmax.forward_pass ss zs).2.1) = Softmax.forward_pass ss zs := by
    show (softmaxActivation (softmaxShifted zs),
        softmaxShifted (softmaxShifted zs),
        (⟨some (softmaxActivation (softmaxShifted zs))⟩ : Softmax r t)) =
      (softmaxActivation zs, softmaxShifted zs,
        (⟨some (softmaxActivation zs)⟩ : Softmax r t))
    rw [softmaxActivation_softmaxShifted, softmaxShifted_idem]
  exact ⟨rfl, rfl, rfl, rfl, h5, by rw [h5]⟩

/-- Concrete Softmax input used to exhibit the in-place mutation of the
caller's array by `Softmax.forward_pass`. -/
noncomputable def zMut : Matrix (Fin 2) (Fin 1) ℝ := Matrix.of ![![0], ![1]]

/-- C4 counterexample: `Softmax.forward_pass` does not leave the caller's
input array unmodified — on the concrete input with column `(0, 1)` the
array afterwards holds the column-max-shifted values, which differ from
the original. -/
theorem softmax_forward_mutates_input_counterexample :
    (Softmax.forward_pass (Softmax.init 1 1) zMut).2.1 ≠ zMut := by
  intro hEq
  have h00 : zMut 0 0 - colMax zMut 0 = zMut 0 0 :=
    congrFun (congrFun hEq 0) 0
  have hle : zMut 1 0 ≤ colMax zMut 0 :=
    Finset.le_sup' (fun i => zMut i 0) (Finset.mem_univ 1)
  have hz0 : zMut 0 0 = 0 := by
    simp [zMut]
  have hz1 : zMut 1 0 = 1 := by
    simp [zMut]
  rw [hz0] at h00
  rw [hz1] at hle
  have hc : colMax zMut 0 = 0 := by linarith
  linarith

/-- C4 amended: Dense and Relu forward passes leave the caller's input
array unmodified (their only side effect is overwriting the layer's own
cache), while the Softmax forward pass additionally mutates the caller's
input array in place, leaving it holding the column-max-shifted values. -/
theorem forward_pass_input_effects {k n m p q r t : ℕ}
    (W : Matrix (Fin k) (Fin n) ℚ) (b : Matrix (Fin k) (Fin 1) ℚ)
    (li : Option (Matrix (Fin n) (Fin m) ℚ)) (ms : Option ℕ)
    (gw : Option (Matrix (Fin k) (Fin n) ℚ))
    (gb : Option (Matrix (Fin k) (Fin 1) ℚ))
    (x : Matrix (Fin n) (Fin m) ℚ)
    (sr : Relu p q) (zr : Matrix (Fin p) (Fin q) ℚ)
    (ss : Softmax r t) (zs : Matrix (Fin (r + 1)) (Fin t) ℝ) :
    Dense.forward_pass (⟨some W, some b, li, ms, gw, gb⟩ : Dense k n m) x =
      .ok (densePreactivation W b x, x,
        ⟨some W, some b, some x, some m, gw, gb⟩) ∧
    (Relu.forward_pass sr zr).2.1 = zr ∧
    (Softmax.forward_pass ss zs).2.1 = softmaxShifted zs :=
  ⟨rfl, rfl, rfl⟩

end Layers
